import Mathlib

/-
Verification of the crop-variant filename parser and substitution-matching
algorithm of the crop-replace utility.

Strings are modelled as `List Char` (Go strings are byte sequences; all inputs
involved here are ASCII, so byte-wise and char-wise processing agree).
Unsigned 64-bit integers are modelled as `Nat` with explicit wrap-around
(`% 2^64`) where the Go code can overflow or underflow.

The embedded functions mirror, line by line:
  - `getCropVariant` (the filename grammar scanner, char-by-char state machine),
  - `stringIndexes` (the greedy non-overlapping substring locator),
  - the candidate-crop scan inlined in `replaceContentSingle`
    (the repository's tests name this extraction `findSuitableCrop`),
  - `replaceContentSingle` and `replaceCrops` (the content rewriter), and
  - the older `replaceCrops` of `main.go` (namespace `MainGo`), whose loop
    computes stem indexes and discards them.
-/

/-- Decides whether a character is an ASCII digit, mirroring the Go test
`c >= '0' && c <= '9'`. -/
def isDigit (c : Char) : Bool :=
  decide ('0' ≤ c) && decide (c ≤ '9')

/-- Value of a base-10 digit string, as accumulated by `strconv.ParseUint`. -/
def digitsToNat (ds : List Char) : Nat :=
  List.foldl (fun n c => n * 10 + (c.toNat - '0'.toNat)) 0 ds

/-- Models `strconv.ParseUint(s, 10, 64)`: succeeds exactly on a non-empty
all-digit string whose value fits in an unsigned 64-bit integer. -/
def parseUint64 (ds : List Char) : Option Nat :=
  if ds = [] then none
  else if ds.all isDigit then
    (if digitsToNat ds < 2 ^ 64 then some (digitsToNat ds) else none)
  else none

/-- Boolean prefix test on char lists, modelling `strings.HasPrefix s p`
(here `hasPre p s` means `p` is a prefix of `s`). -/
def hasPre : List Char → List Char → Bool
  | [], _ => true
  | _ :: _, [] => false
  | a :: p, b :: s => if a = b then hasPre p s else false

/-- Models `strings.Index s sub`: the smallest offset at which `sub` occurs in
`s` (`none` for Go's `-1`); `firstIdx s [] = some 0` as in Go. -/
def firstIdx : List Char → List Char → Option Nat
  | [], sub => if hasPre sub [] then some 0 else none
  | b :: t, sub =>
    if hasPre sub (b :: t) then some 0
    else (firstIdx t sub).map (fun i => i + 1)

/-- Mirrors the Go struct `crop`: the canonical dimension string (for example
"600x340") and the parsed width and height (uint64 values, modelled as Nat). -/
structure crop where
  str : List Char
  width : Nat
  height : Nat
deriving DecidableEq, Repr

/-- Mirrors the Go struct `attachment`: row ID, base file name (with
extension), extension (with leading dot), and the discovered crop variants. -/
structure attachment where
  ID : Int
  fileName : List Char
  ext : List Char
  crops : List crop
deriving DecidableEq, Repr

/-- The char-by-char scanning loop of `getCropVariant` (the `charLoop` over
`fileNameEnd[1:]`): collects width digits until an `x`, then height digits
until a `.`, breaking once both delimiters were seen; any other character is a
hard failure (`none`). State `(w, h, wSet, hSet)` mirrors the Go locals. -/
def scanLoop : List Char → List Char → List Char → Bool → Bool →
    Option (List Char × List Char)
  | [], w, h, _, _ => some (w, h)
  | c :: rest, w, h, wSet, hSet =>
    if wSet && hSet then some (w, h)
    else if isDigit c then
      (if !wSet then scanLoop rest (w ++ [c]) h wSet hSet
       else if !hSet then scanLoop rest w (h ++ [c]) wSet hSet
       else none)
    else if c = 'x' then scanLoop rest w h true hSet
    else if c = '.' then scanLoop rest w h wSet true
    else none

/-- Mirrors `getCropVariant(fileNameEnd, ext)` of the final `main.go`
(src/unnamed/part_001, lines 259-308): requires a leading `-`, runs the char
scan, requires both digit runs non-empty, re-checks that the original suffix
starts with the reconstructed literal `-<w>x<h><ext>`, and parses both runs as
unsigned 64-bit integers. -/
def getCropVariant : List Char → List Char → Option crop
  | [], _ => none
  | c0 :: rest, ext =>
    if c0 = '-' then
      match scanLoop rest [] [] false false with
      | none => none
      | some (w, h) =>
        if w = [] ∨ h = [] then none
        else if hasPre ('-' :: (w ++ 'x' :: (h ++ ext))) (c0 :: rest) then
          match parseUint64 w, parseUint64 h with
          | some width, some height => some ⟨w ++ 'x' :: h, width, height⟩
          | _, _ => none
        else none
    else none

/-- Fuel-indexed version of the search loop in `stringIndexes`: find the next
occurrence, record `offset + i`, resume in the remainder after `i + len sub`.
The fuel only pads well-foundedness; `stringIndexes` supplies enough fuel for
every non-empty `sub` (for `sub = []` the Go loop never exits, see the C9
analysis below). -/
def stringIndexesFuel : Nat → List Char → List Char → Nat → List Nat
  | 0, _, _, _ => []
  | fuel + 1, s, sub, offset =>
    match firstIdx s sub with
    | none => []
    | some i =>
      (offset + i) ::
        stringIndexesFuel fuel (s.drop (i + sub.length)) sub (offset + i + sub.length)

/-- Mirrors `stringIndexes(s, substr)` (src/unnamed/part_001, lines 427-440). -/
def stringIndexes (s sub : List Char) : List Nat :=
  stringIndexesFuel (s.length + 1) s sub 0

/-- Fuel-indexed model of `strings.Replace(s, old, new, -1)`: replace
successive non-overlapping occurrences left to right, resuming after the
inserted replacement. -/
def replaceAllFuel : Nat → List Char → List Char → List Char → List Char
  | 0, s, _, _ => s
  | fuel + 1, s, old, new =>
    match firstIdx s old with
    | none => s
    | some i => s.take i ++ new ++ replaceAllFuel fuel (s.drop (i + old.length)) old new

/-- Models `strings.Replace(s, old, new, -1)`; the program only calls it with
non-empty `old`, for which the fuel is sufficient. -/
def replaceAll (s old new : List Char) : List Char :=
  replaceAllFuel (s.length + 1) s old new

/-- Wrapped uint64 subtraction: the value of the Go expression `a - b` on
`uint64` operands, which underflows modulo 2^64. -/
def wrapSub (a b : Nat) : Nat :=
  (((a : Int) - (b : Int)) % ((2 : Int) ^ 64)).toNat

/-- Mirrors `widthDiffTolerance float64 = 35.0`: the maximum tolerated
percentage difference in width between replaced images. -/
def widthDiffTolerance : Nat := 35

/-- Models the Go test
`math.Abs(float64(crop.width-existing.width)/float64(crop.width))*100.0 <= widthDiffTolerance`.
The subtraction is on uint64 and wraps (see `wrapSub`); the wrapped difference
`d` and `ref` are non-negative, so the float comparison holds exactly when
`100 * d <= 35 * ref` in exact arithmetic. For `ref = 0` the division gives
NaN or +Inf, and either comparison with 35.0 is false. Conversions of these
integers to float64 round, but rounding cannot move a quotient across the
threshold at the magnitudes any claim below evaluates (all are far from 35%). -/
def widthClose (ref cand : Nat) : Bool :=
  if ref = 0 then false
  else decide (wrapSub ref cand * 100 ≤ widthDiffTolerance * ref)

/-- The scan over the known crops inlined in `replaceContentSingle`
(src/unnamed/part_001, lines 396-407): `good` becomes true and the loop breaks
on an exact width-and-height match; otherwise `okDiff` is overwritten with the
index of every candidate passing the width-tolerance test, so the last
qualifying candidate wins. Accumulator form of the Go `for i := range` loop. -/
def findLoop (c : crop) : List crop → Int → Int → Bool × Int
  | [], _, okDiff => (false, okDiff)
  | e :: rest, i, okDiff =>
    if c.width = e.width ∧ c.height = e.height then (true, okDiff)
    else if widthClose c.width e.width then findLoop c rest (i + 1) i
    else findLoop c rest (i + 1) okDiff

/-- The candidate scan of `replaceContentSingle`, as the pair
`(good, okDiff)`; the repository's tests name this extraction
`findSuitableCrop`. -/
def findSuitableCrop (c : crop) (crops : List crop) : Bool × Int :=
  findLoop c crops 0 (-1)

/-- Insert-or-overwrite into the replacement map, modelling assignment to the
Go map `replacements`. Keys stay unique; the model keeps insertion order
(Go map iteration order is unspecified, but every claim settled here creates
at most one entry, so the order never matters). -/
def insertRule (rules : List (List Char × List Char)) (k v : List Char) :
    List (List Char × List Char) :=
  if rules.any (fun r => r.1 = k) then
    rules.map (fun r => if r.1 = k then (k, v) else r)
  else rules ++ [(k, v)]

/-- Mirrors `replaceContentSingle(content, file)` (src/unnamed/part_001,
lines 389-424): scan every greedy occurrence of the trimmed stem, parse the
suffix with `getCropVariant`, and for every parsed reference with no exact
match record the rule `trimmed + crop.str + file.ext -> file.fileName` — as in
the source, the key is built without the `-` separator, and both the
`okDiff > -1` branch and the fallback branch store the bare file name. Then
apply every recorded rule with a global `strings.Replace`. -/
def replaceContentSingle (content : List Char) (file : attachment) : List Char :=
  let trimmed := file.fileName.take (file.fileName.length - file.ext.length)
  let rules := List.foldl
    (fun acc indx =>
      match getCropVariant (content.drop (indx + trimmed.length)) file.ext with
      | none => acc
      | some cr =>
        match findSuitableCrop cr file.crops with
        | (good, okDiff) =>
          if good then acc
          else
            let old := trimmed ++ cr.str ++ file.ext
            if okDiff > -1 then insertRule acc old file.fileName
            else insertRule acc old file.fileName)
    [] (stringIndexes content trimmed)
  List.foldl (fun c r => replaceAll c r.1 r.2) content rules

/-- Mirrors `replaceCrops(content, files)` (src/unnamed/part_001,
lines 379-384): fold `replaceContentSingle` over the attachments in order. -/
def replaceCrops (content : List Char) : List attachment → List Char
  | [] => content
  | file :: rest => replaceCrops (replaceContentSingle content file) rest

namespace MainGo

/-- Mirrors `replaceCrops` of src/main.go (lines 347-364): the loop computes
the trimmed stem and its indexes for each attachment and discards them; the
(possibly rebound) content is returned with no substitution performed. -/
def replaceCrops (content : List Char) : List attachment → List Char
  | [] => content
  | file :: files =>
    let trimmed := file.fileName.take (file.fileName.length - file.ext.length)
    let _indexes := stringIndexes content trimmed
    replaceCrops content files

end MainGo

/-- Specification-side relation, written from the spec's words for the
Substring Locator: the result lists the start offsets (relative to the
original string, hence the accumulator `off`) of the non-overlapping,
left-to-right, greedy occurrences of the stem — each recorded occurrence is
the leftmost one, and the search resumes at `i + len sub`, never `i + 1`. -/
inductive GreedyScan (sub : List Char) : List Char → Nat → List Nat → Prop where
  | nil : ∀ s off, (∀ i, hasPre sub (s.drop i) = false) → GreedyScan sub s off []
  | cons : ∀ s off i res,
      hasPre sub (s.drop i) = true →
      (∀ j, j < i → hasPre sub (s.drop j) = false) →
      GreedyScan sub (s.drop (i + sub.length)) (off + i + sub.length) res →
      GreedyScan sub s off ((off + i) :: res)

/-- One iteration of the `stringIndexes` search loop as a state transformer on
the remaining string: `none` means the loop exits (`strings.Index` returned
-1), otherwise the remainder after the match is the next state. -/
def stepGo (sub s : List Char) : Option (List Char) :=
  match firstIdx s sub with
  | none => none
  | some i => some (s.drop (i + sub.length))

/-- Iterates `stepGo` n times from state `s`; `none` once the loop has
exited. -/
def iterGo (sub : List Char) : Nat → List Char → Option (List Char)
  | 0, s => some s
  | n + 1, s =>
    match stepGo sub s with
    | none => none
    | some t => iterGo sub n t

/-- The search loop of `stringIndexes s sub` eventually reaches its exit
condition. -/
def loopExits (s sub : List Char) : Prop := ∃ n, iterGo sub n s = none

/-- The attachment `bcd.png` with crops 200x180 and 400x320, as in the spec's
end-to-end scenario and in `TestReplaceCrops`. -/
def attBcd : attachment :=
  ⟨0, "bcd.png".data, ".png".data,
    [⟨"200x180".data, 200, 180⟩, ⟨"400x320".data, 400, 320⟩]⟩

/-- An attachment `1.c` (stem "1", extension ".c") with no stored crops, used
to exhibit non-idempotence of the rewriter. -/
def attOneC : attachment := ⟨0, "1.c".data, ".c".data, []⟩

theorem hasPre_append (p s : List Char) : hasPre p (p ++ s) = true := by
  induction p with
  | nil => rfl
  | cons a p ih => simp [hasPre, ih]

theorem hasPre_eq_append {p s : List Char} (h : hasPre p s = true) :
    ∃ t, s = p ++ t := by
  induction p generalizing s with
  | nil => exact ⟨s, rfl⟩
  | cons a p ih =>
    cases s with
    | nil => simp [hasPre] at h
    | cons b s' =>
      unfold hasPre at h
      by_cases hab : a = b
      · rw [if_pos hab] at h
        obtain ⟨t, ht⟩ := ih h
        exact ⟨t, by simp [hab, ht]⟩
      · rw [if_neg hab] at h
        exact absurd h (by simp)

theorem hasPre_drop_lt {sub s : List Char} {i : Nat} (hsub : sub ≠ [])
    (h : hasPre sub (s.drop i) = true) : i < s.length := by
  by_contra hge
  have hnil : s.drop i = [] := List.drop_eq_nil_of_le (by omega)
  cases sub with
  | nil => exact hsub rfl
  | cons a p => rw [hnil] at h; simp [hasPre] at h

theorem firstIdx_none {s sub : List Char} (h : firstIdx s sub = none) :
    ∀ i, hasPre sub (s.drop i) = false := by
  induction s with
  | nil =>
    intro i
    unfold firstIdx at h
    by_cases hp : hasPre sub [] = true
    · rw [if_pos hp] at h; exact Option.noConfusion h
    · simpa [List.drop_nil] using Bool.eq_false_iff.mpr (fun he => hp he)
  | cons b t ih =>
    intro i
    unfold firstIdx at h
    by_cases hp : hasPre sub (b :: t) = true
    · rw [if_pos hp] at h; exact Option.noConfusion h
    · rw [if_neg hp] at h
      have ht : firstIdx t sub = none := by
        cases hft : firstIdx t sub with
        | none => rfl
        | some j => rw [hft] at h; exact Option.noConfusion h
      cases i with
      | zero => simpa using Bool.eq_false_iff.mpr (fun he => hp he)
      | succ i' => simpa using ih ht i'

theorem firstIdx_some {s sub : List Char} {i : Nat} (h : firstIdx s sub = some i) :
    hasPre sub (s.drop i) = true ∧ ∀ j, j < i → hasPre sub (s.drop j) = false := by
  induction s generalizing i with
  | nil =>
    unfold firstIdx at h
    by_cases hp : hasPre sub [] = true
    · rw [if_pos hp] at h
      obtain rfl : i = 0 := by simpa using h.symm
      exact ⟨by simpa using hp, fun j hj => absurd hj (by omega)⟩
    · rw [if_neg hp] at h; exact Option.noConfusion h
  | cons b t ih =>
    unfold firstIdx at h
    by_cases hp : hasPre sub (b :: t) = true
    · rw [if_pos hp] at h
      obtain rfl : i = 0 := by simpa using h.symm
      exact ⟨by simpa using hp, fun j hj => absurd hj (by omega)⟩
    · rw [if_neg hp] at h
      cases hft : firstIdx t sub with
      | none => rw [hft] at h; exact Option.noConfusion h
      | some j =>
        rw [hft] at h
        obtain rfl : i = j + 1 := by simpa using h.symm
        obtain ⟨h1, h2⟩ := ih hft
        refine ⟨by simpa using h1, ?_⟩
        intro k hk
        cases k with
        | zero => simpa using Bool.eq_false_iff.mpr (fun he => hp he)
        | succ k' => simpa using h2 k' (by omega)

/-- C1. Claimed: a within-tolerance (non-exact) crop reference is replaced by
the stem plus the matched Crop's dimension string plus the extension, so
"bcd-210x195.png" becomes "bcd-200x180.png" for attachment bcd.png with crops
{200x180, 400x320}. The code disagrees: `replaceContentSingle` keys its
replacement rule on `trimmed + crop.str + ext` (no `-` separator, here
"bcd210x195.png"), which never occurs in the content, and both non-exact
branches store the bare file name — so the content is returned unchanged,
contradicting `TestReplaceCrops`. This theorem evaluates the embedded code at
that failing input. -/
theorem C1_close_match_eval :
    replaceCrops ("bcd-210x195.png".data) [attBcd] = "bcd-210x195.png".data
      ∧ "bcd-210x195.png".data ≠ "bcd-200x180.png".data := by
  exact ⟨by decide, by decide⟩

/-- C2. Claimed: the width tolerance is symmetric,
`abs(W - W') / W * 100 <= 35`, so reference width 500 against candidate 510
is a close match (2 percent). The code disagrees: `crop.width - existing.width`
is a uint64 subtraction that wraps when the candidate is wider, so the scan of
`{510x460, 400x330}` for reference 500x450 skips 510 and returns
`(good, okDiff) = (false, 1)`, while `TestFindSuitableCrop` expects
`(false, 0)`. The two `widthClose` conjuncts exhibit the asymmetry. -/
theorem C2_tolerance_eval :
    findSuitableCrop ⟨"500x450".data, 500, 450⟩
        [⟨"510x460".data, 510, 460⟩, ⟨"400x330".data, 400, 330⟩] = (false, 1)
      ∧ widthClose 500 510 = false ∧ widthClose 510 500 = true := by
  exact ⟨by decide, by decide, by decide⟩

/-- C4. The `replaceCrops` of src/main.go returns its content argument
unchanged for every content string and attachment list: its loop computes stem
indexes and discards them, so the wired program never rewrites anything and
the `got != content` changed-row check is always false. -/
theorem C4_mainGo_identity :
    ∀ (content : List Char) (files : List attachment),
      MainGo.replaceCrops content files = content := by
  intro content files
  induction files with
  | nil => rfl
  | cons f fs ih => simpa [MainGo.replaceCrops] using ih

/-- C5. Claimed: a crop reference with no exact and no close match is replaced
by the attachment's bare file name, so "bcd-30x15.png" becomes "bcd.png". The
code disagrees: the replacement rule is keyed on the dashless literal
"bcd30x15.png", which never occurs, so the content is returned unchanged,
contradicting `TestReplaceCrops`. This theorem evaluates the embedded code at
that failing input. -/
theorem C5_no_match_eval :
    replaceCrops ("bcd-30x15.png".data) [attBcd] = "bcd-30x15.png".data
      ∧ "bcd-30x15.png".data ≠ "bcd.png".data := by
  exact ⟨by decide, by decide⟩

/-- C8. Claimed: the Rewriter only ever changes replaced crop-reference
literals and rewrites "HELLO WORLD bcd-210x195.png" to
"HELLO WORLD bcd-200x180.png" with the surroundings preserved. The code
disagrees twice: that content is returned unchanged (contradicting
`TestReplaceCrops`), and on "bcd-5x5.png AND bcd5x5.png" the code rewrites the
dashless literal "bcd5x5.png" — text that is not a crop reference — while
leaving the actual crop reference "bcd-5x5.png" in place. -/
theorem C8_frame_eval :
    replaceCrops ("HELLO WORLD bcd-210x195.png".data) [attBcd]
        = "HELLO WORLD bcd-210x195.png".data
      ∧ replaceCrops ("bcd-5x5.png AND bcd5x5.png".data) [attBcd]
        = "bcd-5x5.png AND bcd.png".data := by
  exact ⟨by decide, by decide⟩

/-- C7 counterexample. The claim that the Rewriter is idempotent is false: for
attachment `1.c` (stem "1", no stored crops) and content
"1-1x1.c11x11x1.c", the first pass replaces the dashless literal "11x1.c" and
thereby creates a fresh occurrence of it, which a second pass replaces again,
so the second pass is not a no-op. -/
theorem C7_not_idempotent :
    replaceCrops (replaceCrops ("1-1x1.c11x11x1.c".data) [attOneC]) [attOneC]
      ≠ replaceCrops ("1-1x1.c11x11x1.c".data) [attOneC] := by
  decide

/-- C7 amended. Applying the Rewriter twice yields the same result as applying
it once whenever the first application leaves the content unchanged; in
general a second pass can rewrite text created by the first, so unrestricted
idempotence fails (see the counterexample). -/
theorem C7_idempotent_on_fixed :
    ∀ (content : List Char) (files : List attachment),
      replaceCrops content files = content →
      replaceCrops (replaceCrops content files) files = replaceCrops content files := by
  intro content files h
  rw [h]
  exact h

/-- Witness for C7 amended: the Rewriter leaves "abc.png" unchanged for the
bcd.png attachment, and the amended statement applies there. -/
theorem C7_idempotent_witness :
    replaceCrops ("abc.png".data) [attBcd] = "abc.png".data
      ∧ replaceCrops (replaceCrops ("abc.png".data) [attBcd]) [attBcd]
        = replaceCrops ("abc.png".data) [attBcd] := by
  refine ⟨by decide, ?_⟩
  exact C7_idempotent_on_fixed ("abc.png".data) [attBcd] (by decide)

/-- C10 counterexample. The claim that inventory building never records a crop
with zero width or height is false: the scanner accepts "-0x0.png" and returns
a crop with width 0 and height 0, which `checkStorageObjects` would append
as-is. -/
theorem C10_zero_crop :
    getCropVariant ("-0x0.png".data) (".png".data) = some ⟨"0x0".data, 0, 0⟩ := by
  decide

theorem scanLoop_digits :
    ∀ (rest w0 h0 : List Char) (wS hS : Bool) (w h : List Char),
      scanLoop rest w0 h0 wS hS = some (w, h) →
      w0.all isDigit = true → h0.all isDigit = true →
      w.all isDigit = true ∧ h.all isDigit = true := by
  intro rest
  induction rest with
  | nil =>
    intro w0 h0 wS hS w h hscan hw hh
    unfold scanLoop at hscan
    obtain ⟨rfl, rfl⟩ : w0 = w ∧ h0 = h := by
      simpa using hscan
    exact ⟨hw, hh⟩
  | cons c t ih =>
    intro w0 h0 wS hS w h hscan hw hh
    unfold scanLoop at hscan
    by_cases hws : (wS && hS) = true
    · rw [if_pos hws] at hscan
      obtain ⟨rfl, rfl⟩ : w0 = w ∧ h0 = h := by simpa using hscan
      exact ⟨hw, hh⟩
    · rw [if_neg hws] at hscan
      by_cases hd : isDigit c = true
      · rw [if_pos hd] at hscan
        by_cases hnw : (!wS) = true
        · rw [if_pos hnw] at hscan
          exact ih _ _ _ _ _ _ hscan (by simp [List.all_append, hw, hd]) hh
        · rw [if_neg hnw] at hscan
          by_cases hnh : (!hS) = true
          · rw [if_pos hnh] at hscan
            exact ih _ _ _ _ _ _ hscan hw (by simp [List.all_append, hh, hd])
          · rw [if_neg hnh] at hscan
            exact Option.noConfusion hscan
      · rw [if_neg hd] at hscan
        by_cases hx : c = 'x'
        · rw [if_pos hx] at hscan
          exact ih _ _ _ _ _ _ hscan hw hh
        · rw [if_neg hx] at hscan
          by_cases hdot : c = '.'
          · rw [if_pos hdot] at hscan
            exact ih _ _ _ _ _ _ hscan hw hh
          · rw [if_neg hdot] at hscan
            exact Option.noConfusion hscan

theorem parseUint64_some {ds : List Char} {a : Nat} (h : parseUint64 ds = some a) :
    ds ≠ [] ∧ ds.all isDigit = true ∧ a = digitsToNat ds ∧ digitsToNat ds < 2 ^ 64 := by
  unfold parseUint64 at h
  by_cases h1 : ds = []
  · rw [if_pos h1] at h; exact Option.noConfusion h
  · rw [if_neg h1] at h
    by_cases h2 : ds.all isDigit = true
    · rw [if_pos h2] at h
      by_cases h3 : digitsToNat ds < 2 ^ 64
      · rw [if_pos h3] at h
        exact ⟨h1, h2, by simpa using h.symm, h3⟩
      · rw [if_neg h3] at h; exact Option.noConfusion h
    · rw [if_neg h2] at h; exact Option.noConfusion h

theorem parseUint64_eq {ds : List Char} (h1 : ds ≠ []) (h2 : ds.all isDigit = true)
    (h3 : digitsToNat ds < 2 ^ 64) : parseUint64 ds = some (digitsToNat ds) := by
  unfold parseUint64
  rw [if_neg h1, if_pos h2, if_pos h3]

theorem getCropVariant_some_spec {s ext : List Char} {c : crop}
    (h : getCropVariant s ext = some c) :
    ∃ W H, W ≠ [] ∧ H ≠ [] ∧ W.all isDigit = true ∧ H.all isDigit = true ∧
      digitsToNat W < 2 ^ 64 ∧ digitsToNat H < 2 ^ 64 ∧
      hasPre ('-' :: (W ++ 'x' :: (H ++ ext))) s = true ∧
      c = ⟨W ++ 'x' :: H, digitsToNat W, digitsToNat H⟩ := by
  cases s with
  | nil => simp [getCropVariant] at h
  | cons c0 rest =>
    rw [show getCropVariant (c0 :: rest) ext
        = (if c0 = '-' then
            match scanLoop rest [] [] false false with
            | none => none
            | some (w, h) =>
              if w = [] ∨ h = [] then none
              else if hasPre ('-' :: (w ++ 'x' :: (h ++ ext))) (c0 :: rest) then
                match parseUint64 w, parseUint64 h with
                | some width, some height => some ⟨w ++ 'x' :: h, width, height⟩
                | _, _ => none
              else none
          else none) from rfl] at h
    split at h
    case isTrue hc0 =>
      subst hc0
      split at h
      case h_1 => exact Option.noConfusion h
      case h_2 w hh hscan =>
        split at h
        case isTrue => exact Option.noConfusion h
        case isFalse hne =>
          split at h
          case isFalse => exact Option.noConfusion h
          case isTrue hpre =>
            split at h
            case h_2 => exact Option.noConfusion h
            case h_1 a b hpw hph =>
              obtain ⟨hw1, hw2, hw3, hw4⟩ := parseUint64_some hpw
              obtain ⟨hh1, hh2, hh3, hh4⟩ := parseUint64_some hph
              obtain ⟨hwd, hhd⟩ := scanLoop_digits _ _ _ _ _ _ _ hscan rfl rfl
              refine ⟨w, hh, ?_, ?_, hwd, hhd, hw4, hh4, hpre, ?_⟩
              · intro hwe; exact hne (Or.inl hwe)
              · intro hhe; exact hne (Or.inr hhe)
              · have hc : c = ⟨w ++ 'x' :: hh, a, b⟩ := by simpa using h.symm
                rw [hc, hw3, hh3]
    case isFalse hc0 => exact Option.noConfusion h

/-- C10 amended. Every crop the scanner returns (and hence every Crop record
built by `checkStorageObjects`) has both digit runs present and its canonical
string exactly "<width digits>x<height digits>", with width and height the
parsed values — but those values may be zero, so strict positivity does not
hold (see the counterexample). -/
theorem C10_crop_shape :
    ∀ (s ext : List Char) (c : crop), getCropVariant s ext = some c →
      ∃ W H, W ≠ [] ∧ H ≠ [] ∧ W.all isDigit = true ∧ H.all isDigit = true ∧
        c.str = W ++ 'x' :: H ∧ c.width = digitsToNat W ∧ c.height = digitsToNat H := by
  intro s ext c h
  obtain ⟨W, H, h1, h2, h3, h4, _, _, _, hc⟩ := getCropVariant_some_spec h
  exact ⟨W, H, h1, h2, h3, h4, by rw [hc], by rw [hc], by rw [hc]⟩

/-- Witness for C10 amended: the scanner accepts "-600x340.png" and the
amended shape statement applies to the returned crop. -/
theorem C10_crop_shape_witness :
    getCropVariant ("-600x340.png".data) (".png".data) = some ⟨"600x340".data, 600, 340⟩
      ∧ ∃ W H, W ≠ [] ∧ H ≠ [] ∧ W.all isDigit = true ∧ H.all isDigit = true ∧
        (⟨"600x340".data, 600, 340⟩ : crop).str = W ++ 'x' :: H
        ∧ (⟨"600x340".data, 600, 340⟩ : crop).width = digitsToNat W
        ∧ (⟨"600x340".data, 600, 340⟩ : crop).height = digitsToNat H := by
  refine ⟨by decide, ?_⟩
  exact C10_crop_shape ("-600x340.png".data) (".png".data) ⟨"600x340".data, 600, 340⟩ (by decide)

/-- C9 counterexample. The claim that `stringIndexes` terminates for every
input pair is false for an empty stem: `strings.Index` returns 0 on the empty
substring and the advance is 0, so the loop state never changes and the exit
condition is never reached (the Go loop runs forever on, for example,
content "a" with stem ""). -/
theorem C9_empty_stem_diverges : ¬ loopExits ("a".data) [] := by
  intro hex
  obtain ⟨n, hn⟩ := hex
  have hstep : stepGo [] ("a".data) = some ("a".data) := by decide
  have hall : ∀ m, iterGo [] m ("a".data) = some ("a".data) := by
    intro m
    induction m with
    | zero => rfl
    | succ k ih =>
      show iterGo [] (k + 1) ("a".data) = some ("a".data)
      unfold iterGo
      rw [hstep]
      exact ih
  rw [hall n] at hn
  exact Option.noConfusion hn

/-- C9 amended. For every content string and every non-empty stem, the search
loop of `stringIndexes` reaches its exit condition after finitely many
iterations (each iteration strictly shortens the remaining string), so
`stringIndexes` is a total pure function of its inputs there; for the empty
stem the loop never exits (see the counterexample). -/
theorem C9_terminates_nonempty :
    ∀ (s sub : List Char), sub ≠ [] → loopExits s sub := by
  intro s sub hsub
  have H : ∀ (n : Nat) (s : List Char), s.length < n → loopExits s sub := by
    intro n
    induction n with
    | zero => intro s hlen; omega
    | succ k ih =>
      intro s hlen
      cases hfi : firstIdx s sub with
      | none =>
        refine ⟨1, ?_⟩
        show (match stepGo sub s with
          | none => none
          | some t => iterGo sub 0 t) = none
        unfold stepGo
        rw [hfi]
      | some i =>
        have hocc := (firstIdx_some hfi).1
        have hi : i < s.length := hasPre_drop_lt hsub hocc
        have hlsub : 1 ≤ sub.length := by
          cases sub with
          | nil => exact absurd rfl hsub
          | cons a p => simp
        have hdrop : (s.drop (i + sub.length)).length < k := by
          rw [List.length_drop]
          omega
        obtain ⟨m, hm⟩ := ih (s.drop (i + sub.length)) hdrop
        refine ⟨m + 1, ?_⟩
        show (match stepGo sub s with
          | none => none
          | some t => iterGo sub m t) = none
        unfold stepGo
        rw [hfi]
        exact hm
  exact H (s.length + 1) s (by omega)

/-- Witness for C9 amended: the loop exits for content "aabgaa" and the
non-empty stem "aa". -/
theorem C9_terminates_witness :
    ("aa".data ≠ ([] : List Char)) ∧ loopExits ("aabgaa".data) ("aa".data) :=
  ⟨by decide, C9_terminates_nonempty ("aabgaa".data) ("aa".data) (by decide)⟩

theorem greedyScan_fuel {sub : List Char} (hsub : sub ≠ []) :
    ∀ (n : Nat) (s : List Char) (off : Nat), s.length < n →
      GreedyScan sub s off (stringIndexesFuel n s sub off) := by
  intro n
  induction n with
  | zero => intro s off hlen; omega
  | succ k ih =>
    intro s off hlen
    show GreedyScan sub s off
      (match firstIdx s sub with
        | none => []
        | some i =>
          (off + i) ::
            stringIndexesFuel k (s.drop (i + sub.length)) sub (off + i + sub.length))
    cases hfi : firstIdx s sub with
    | none => exact GreedyScan.nil s off (firstIdx_none hfi)
    | some i =>
      obtain ⟨hocc, hmin⟩ := firstIdx_some hfi
      have hi : i < s.length := hasPre_drop_lt hsub hocc
      have hlsub : 1 ≤ sub.length := by
        cases sub with
        | nil => exact absurd rfl hsub
        | cons a p => simp
      have hdrop : (s.drop (i + sub.length)).length < k := by
        rw [List.length_drop]
        omega
      exact GreedyScan.cons s off i _ hocc hmin (ih _ _ hdrop)

/-- C6. For every content string and every non-empty stem, `stringIndexes`
computes exactly the greedy non-overlapping left-to-right occurrence offsets
of the stem, relative to the original string: each recorded offset is the
leftmost occurrence in the unscanned remainder, and the search resumes at
`i + len(stem)`, never `i + 1` (the `GreedyScan` relation is the spec's
characterization). In particular stringIndexes("aabgaa","aa") = [0,4] and
stringIndexes("aaabc","aa") = [0]; see the witness. -/
theorem C6_stringIndexes_greedy :
    ∀ (s sub : List Char), sub ≠ [] → GreedyScan sub s 0 (stringIndexes s sub) := by
  intro s sub hsub
  exact greedyScan_fuel hsub (s.length + 1) s 0 (by omega)

/-- Witness for C6: at the spec's concrete examples, the computed offset lists
are [0,4] for ("aabgaa","aa") and [0] for ("aaabc","aa") — non-overlapping
(offset 1 is skipped after the match at 0) — and the greedy relation holds for
them by the theorem. -/
theorem C6_stringIndexes_witness :
    ("aa".data ≠ ([] : List Char))
      ∧ stringIndexes ("aabgaa".data) ("aa".data) = [0, 4]
      ∧ stringIndexes ("aaabc".data) ("aa".data) = [0]
      ∧ GreedyScan ("aa".data) ("aabgaa".data) 0 [0, 4]
      ∧ GreedyScan ("aa".data) ("aaabc".data) 0 [0] := by
  refine ⟨by decide, by decide, by decide, ?_, ?_⟩
  · have h := C6_stringIndexes_greedy ("aabgaa".data) ("aa".data) (by decide)
    rwa [show stringIndexes ("aabgaa".data) ("aa".data) = [0, 4] from by decide] at h
  · have h := C6_stringIndexes_greedy ("aaabc".data) ("aa".data) (by decide)
    rwa [show stringIndexes ("aaabc".data) ("aa".data) = [0] from by decide] at h


theorem scanLoop_step_digit_w (c : Char) (rest w0 h0 : List Char)
    (hd : isDigit c = true) :
    scanLoop (c :: rest) w0 h0 false false = scanLoop rest (w0 ++ [c]) h0 false false := by
  simp [scanLoop, hd]

theorem scanLoop_step_digit_h (c : Char) (rest w0 h0 : List Char)
    (hd : isDigit c = true) :
    scanLoop (c :: rest) w0 h0 true false = scanLoop rest w0 (h0 ++ [c]) true false := by
  simp [scanLoop, hd]

theorem scanLoop_step_x (rest w0 h0 : List Char) :
    scanLoop ('x' :: rest) w0 h0 false false = scanLoop rest w0 h0 true false := by
  simp [scanLoop, isDigit]

theorem scanLoop_step_dot (rest w0 h0 : List Char) :
    scanLoop ('.' :: rest) w0 h0 true false = scanLoop rest w0 h0 true true := by
  simp [scanLoop, isDigit]

theorem scanLoop_done (rest w h : List Char) :
    scanLoop rest w h true true = some (w, h) := by
  cases rest with
  | nil => rfl
  | cons c t => simp [scanLoop]

theorem scanLoop_w_digits (W : List Char) :
    ∀ (rest w0 : List Char), W.all isDigit = true →
      scanLoop (W ++ rest) w0 [] false false = scanLoop rest (w0 ++ W) [] false false := by
  induction W with
  | nil => intro rest w0 _; simp
  | cons d W' ih =>
    intro rest w0 hall
    rw [List.all_cons, Bool.and_eq_true] at hall
    obtain ⟨hd, hW'⟩ := hall
    rw [List.cons_append, scanLoop_step_digit_w d _ _ _ hd, ih rest (w0 ++ [d]) hW']
    simp

theorem scanLoop_h_digits (H : List Char) :
    ∀ (rest w h0 : List Char), H.all isDigit = true →
      scanLoop (H ++ rest) w h0 true false = scanLoop rest w (h0 ++ H) true false := by
  induction H with
  | nil => intro rest w h0 _; simp
  | cons d H' ih =>
    intro rest w h0 hall
    rw [List.all_cons, Bool.and_eq_true] at hall
    obtain ⟨hd, hH'⟩ := hall
    rw [List.cons_append, scanLoop_step_digit_h d _ _ _ hd, ih rest w (h0 ++ [d]) hH']
    simp

theorem getCropVariant_complete (W H e t : List Char) (hW : W ≠ []) (hH : H ≠ [])
    (hWd : W.all isDigit = true) (hHd : H.all isDigit = true)
    (hWb : digitsToNat W < 2 ^ 64) (hHb : digitsToNat H < 2 ^ 64) :
    getCropVariant (('-' :: (W ++ 'x' :: (H ++ '.' :: e))) ++ t) ('.' :: e)
      = some ⟨W ++ 'x' :: H, digitsToNat W, digitsToNat H⟩ := by
  have hscan : scanLoop ((W ++ 'x' :: (H ++ '.' :: e)) ++ t) [] [] false false
      = some (W, H) := by
    have harr : (W ++ 'x' :: (H ++ '.' :: e)) ++ t = W ++ 'x' :: (H ++ '.' :: (e ++ t)) := by
      simp
    rw [harr, scanLoop_w_digits W _ [] hWd, List.nil_append, scanLoop_step_x,
      scanLoop_h_digits H _ W [] hHd, List.nil_append, scanLoop_step_dot, scanLoop_done]
  have hne : ¬(W = [] ∨ H = []) := by
    rintro (hcase | hcase)
    · exact hW hcase
    · exact hH hcase
  have hpre : hasPre ('-' :: (W ++ 'x' :: (H ++ '.' :: e)))
      ('-' :: ((W ++ 'x' :: (H ++ '.' :: e)) ++ t)) = true := by
    rw [← List.cons_append]
    exact hasPre_append _ t
  rw [List.cons_append]
  simp only [getCropVariant, hscan]
  rw [if_neg hne, if_pos hpre, parseUint64_eq hW hWd hWb, parseUint64_eq hH hHd hHb]
  rfl

/-- C3. For every suffix string, every expected extension of the data-model
form (a literal with the leading dot separator), and every crop record: the
Grammar Scanner accepts the suffix and returns that record iff the suffix
literally starts with "-<digits>x<digits><extension>" with both digit runs
non-empty and parseable as unsigned 64-bit integers, and the record carries
the canonical dimension string and the parsed values. Consequently any suffix
lacking the leading '-', lacking either digit run, carrying a mismatched
extension, or with an out-of-sequence 'x' or '.' is rejected, while trailing
content after the extension is ignored. -/
theorem C3_grammar_iff :
    ∀ (s ext : List Char) (c : crop), (∃ e, ext = '.' :: e) →
      (getCropVariant s ext = some c ↔
        ∃ W H, W ≠ [] ∧ H ≠ [] ∧ W.all isDigit = true ∧ H.all isDigit = true ∧
          digitsToNat W < 2 ^ 64 ∧ digitsToNat H < 2 ^ 64 ∧
          hasPre ('-' :: (W ++ 'x' :: (H ++ ext))) s = true ∧
          c = ⟨W ++ 'x' :: H, digitsToNat W, digitsToNat H⟩) := by
  intro s ext c hext
  constructor
  · intro h
    exact getCropVariant_some_spec h
  · rintro ⟨W, H, hW, hH, hWd, hHd, hWb, hHb, hpre, rfl⟩
    obtain ⟨e, rfl⟩ := hext
    obtain ⟨t, rfl⟩ := hasPre_eq_append hpre
    exact getCropVariant_complete W H e t hW hH hWd hHd hWb hHb

/-- Witness for C3: the scanner accepts "-600x340.png" for extension ".png"
with width 600 and height 340, derived through the iff at witnesses
W = "600", H = "340". -/
theorem C3_grammar_witness :
    getCropVariant ("-600x340.png".data) (".png".data)
      = some ⟨"600x340".data, 600, 340⟩ := by
  refine (C3_grammar_iff ("-600x340.png".data) (".png".data)
      ⟨"600x340".data, 600, 340⟩ ⟨"png".data, rfl⟩).mpr ?_
  refine ⟨"600".data, "340".data, by decide, by decide, by decide, by decide,
    by decide, by decide, by decide, by decide⟩
